import Mathlib

/-!
Verification of the pdfgen markdown-to-PDF pipeline (package main of the
golang-design research repository).  The Go source is shallowly embedded:
strings are `List Char`, the Go standard-library string helpers the
program uses (strings.Cut, strings.TrimPrefix, strings.TrimSuffix,
strings.ReplaceAll, strings.Split, strings.HasSuffix) are translated to
executable Lean functions on `List Char`, and each fatal `log.Fatal`
path is an `Option.none` result.  Functions that scan ahead by a
computed amount are written with an explicit fuel argument equal to the
input length, which keeps them structurally recursive and hence
evaluable by `decide`; the fuel never runs out because every step
consumes at least one character.
-/

set_option maxRecDepth 4000

/-- Strings of the embedded program are lists of characters. -/
abbrev Str := List Char

/-- Embedding of Go strings.Cut(s, sep): splits around the first
occurrence of sep, returning (before, after); `none` when sep does not
occur (Go additionally returns ok=false and (s, "") in that case; call
sites that treat the not-found case specially are translated against
this `Option`). -/
def cutStr (sep : Str) : Str → Option (Str × Str)
  | [] => if sep.isEmpty then some ([], []) else none
  | c :: r =>
    if sep.isPrefixOf (c :: r) then some ([], (c :: r).drop sep.length)
    else
      match cutStr sep r with
      | none => none
      | some (bf, af) => some (c :: bf, af)

/-- Embedding of Go strings.TrimPrefix. -/
def trimPre (pre s : Str) : Str := if pre.isPrefixOf s then s.drop pre.length else s

/-- Embedding of Go strings.TrimSuffix. -/
def trimSuf (suf s : Str) : Str :=
  if suf.isSuffixOf s then s.take (s.length - suf.length) else s

/-- Fuel-indexed worker for strings.ReplaceAll: leftmost, non-overlapping,
the replacement text is not rescanned.  Fuel at least the length of the
input suffices because every step consumes at least one character. -/
def replaceAllF : Nat → Str → Str → Str → Str
  | 0, _, _, s => s
  | _ + 1, _, _, [] => []
  | fuel + 1, pat, rep, c :: r =>
    if pat.isPrefixOf (c :: r) then rep ++ replaceAllF fuel pat rep ((c :: r).drop pat.length)
    else c :: replaceAllF fuel pat rep r

/-- Embedding of Go strings.ReplaceAll(s, pat, rep).  An empty pattern
makes Go insert rep at every character boundary. -/
def replaceAll (pat rep s : Str) : Str :=
  match pat with
  | [] => rep ++ s.foldr (fun c acc => c :: (rep ++ acc)) []
  | _ :: _ => replaceAllF s.length pat rep s

/-- Fuel-indexed worker for strings.Split. -/
def splitOnF : Nat → Str → Str → List Str
  | 0, _, s => [s]
  | fuel + 1, sep, s =>
    match cutStr sep s with
    | none => [s]
    | some (bf, af) => bf :: splitOnF fuel sep af

/-- Embedding of Go strings.Split(s, sep): an empty separator splits into
single characters. -/
def splitStr (sep s : Str) : List Str :=
  if sep.isEmpty then s.map (fun c => [c]) else splitOnF s.length sep s

/-! Translation of the inline-citation rewriting of `main`:
`regexp.MustCompile("\\[\\^(.*?)\\]")` followed by
`re.ReplaceAllString(text, "\\cite{$1}")`.  RE2 semantics: the scan is
leftmost; at a position starting with the two characters bracket-caret,
the lazy `(.*?)` captures up to the nearest following right bracket, and
`.` does not match a newline, so a newline before any right bracket
makes the match at that position fail and the scan resume one character
further on.  Matched text is replaced by the cite form and scanning
continues after the replaced span. -/

/-- Scans for the nearest following right bracket with no intervening
newline; on success returns the captured key and the remainder after the
bracket. -/
def findKey : Str → Option (Str × Str)
  | [] => none
  | c :: r =>
    if c = ']' then some ([], r)
    else if c = '\n' then none
    else
      match findKey r with
      | none => none
      | some (k, r') => some (c :: k, r')

/-- Replacement text of the citation rewrite: cite-open, the captured
key, close-brace. -/
def citeOf (k : Str) : Str := "\\cite\x7b".data ++ k ++ "\x7d".data

/-- Fuel-indexed worker of the citation rewrite. -/
def replCiteF : Nat → Str → Str
  | 0, s => s
  | _ + 1, [] => []
  | fuel + 1, c :: r =>
    if c = '[' then
      match r with
      | '^' :: r2 =>
        match findKey r2 with
        | some (k, r') => citeOf k ++ replCiteF fuel r'
        | none => c :: replCiteF fuel r
      | _ => c :: replCiteF fuel r
    else c :: replCiteF fuel r

/-- The inline-citation rewrite applied by `main` to the abstract and to
the body. -/
def replCite (s : Str) : Str := replCiteF s.length s

/-! Translation of parseBody: cut after the more-marker, then cut before
the references heading (note: without a trailing newline); either
missing delimiter is a fatal error (`none`). -/

/-- Translation of parseBody (source lines 217 to 241). -/
def parseBody (b : Str) : Option Str :=
  match cutStr "\n<!--more-->".data b with
  | none => none
  | some (_, content) =>
    match cutStr "## References".data content with
    | none => none
    | some (body, _) => some body

/-! The references transformer.  The URL detector of the source is the
third-party xurls.Strict() matcher, whose source is not part of this
repository; it is modelled here from the specification: only
scheme-qualified, strictly delimited URL tokens match, and trailing
punctuation adjacent to a URL is not part of the match. -/

/-- Modelled from the spec: the character set a strict URL token may
contain after its scheme. -/
def urlChar (c : Char) : Bool :=
  c.isAlphanum || c = '-' || c = '.' || c = '_' || c = '~' || c = '/' ||
  c = '%' || c = '?' || c = '#' || c = '=' || c = '&' || c = ':' || c = '+'

/-- Modelled from the spec: punctuation that is stripped from the end of
a URL token so that adjacent sentence punctuation is excluded. -/
def isTrailPunct (c : Char) : Bool :=
  c = '.' || c = ',' || c = ';' || c = ':' || c = '!' || c = '?'

/-- Drops trailing punctuation from a candidate URL token. -/
def dropTrail (s : Str) : Str := (s.reverse.dropWhile isTrailPunct).reverse

/-- Recognizes a URL scheme at the head of the text. -/
def schemeOf (s : Str) : Option Str :=
  if "https://".data.isPrefixOf s then some "https://".data
  else if "http://".data.isPrefixOf s then some "http://".data
  else none

/-- Fuel-indexed worker of the URL scan. -/
def findURLsF : Nat → Str → List Str
  | 0, _ => []
  | _ + 1, [] => []
  | fuel + 1, c :: r =>
    match schemeOf (c :: r) with
    | some sch =>
      let rest := (c :: r).drop sch.length
      let run := rest.takeWhile urlChar
      dropTrail (sch ++ run) :: findURLsF fuel (rest.drop run.length)
    | none => findURLsF fuel r

/-- Modelled from the spec: xurls.Strict().FindAllString(content, -1),
every non-overlapping strict URL match in order of occurrence. -/
def findURLs (s : Str) : List Str := findURLsF s.length s

/-- Translation of the URL-wrapping loop of parseReferences: for each
found URL string, a global ReplaceAll wraps every occurrence of that
string in url markup. -/
def wrapURLs : List Str → Str → Str
  | [], content => content
  | u :: us, content =>
    wrapURLs us (replaceAll u ("\\url\x7b".data ++ u ++ "\x7d".data) content)

/-- Translation of parseReferences (source lines 243 to 268): cut after
the references heading followed by a newline (fatal if absent), replace
the citation-definition opener, then the definition closer, wrap every
found URL, and surround with the bibliography environment. -/
def parseReferences (b : Str) : Option Str :=
  match cutStr "## References\n".data b with
  | none => none
  | some (_, content) =>
    let c1 := replaceAll "[^".data "\\bibitem\x7b".data content
    let c2 := replaceAll "]:".data "\x7d".data c1
    let c3 := wrapURLs (findURLs c2) c2
    some ("\\begin\x7bthebibliography\x7d\x7b99\x7d".data ++ c3 ++
          "\\end\x7bthebibliography\x7d".data)

/-! Translation of the author extraction (source lines 151 to 196): the
author struct, its String method, and parseAuthor, which scans the
document line by line, collects a formatted citation string for every
well-formed bracketed author entry on a line carrying the author-list
marker, and fails fatally when zero entries were collected. -/

/-- Translation of the author struct. -/
structure Author where
  name : Str
  email : Str
deriving DecidableEq, Repr

/-- Translation of the String method of author:
Sprintf of name, caret, bracketed Email tag. -/
def authorString (a : Author) : Str :=
  a.name ++ "^[Email: ".data ++ a.email ++ "]".data

/-- Translation of the per-entry body of the inner loop of parseAuthor:
cut around the bracket-paren separator (skipping the entry when absent),
trim the leading bracket from the name, trim the closing paren and the
mailto scheme from the address, and normalize the at-marker. -/
def parseEntry (a : Str) : Option Author :=
  match cutStr "](".data a with
  | none => none
  | some (before, after) =>
    some ⟨trimPre "[".data before,
          replaceAll "[at]".data "@".data
            (trimPre "mailto:".data (trimSuf ")".data after))⟩

/-- Entries contributed by one scanned line: nothing unless the line
carries the author-list marker; otherwise the formatted citation string
of every well-formed comma-separated entry. -/
def authorsOfLine (l : Str) : List Str :=
  if "Author(s): ".data.isPrefixOf l then
    ((splitStr ", ".data (trimPre "Author(s): ".data l)).filterMap parseEntry).map
      authorString
  else []

/-- Lines delivered by the bufio line scanner: split at newlines, one
trailing carriage return stripped per line. -/
def scanLines (b : Str) : List Str := (splitStr "\n".data b).map (trimSuf "\r".data)

/-- Translation of parseAuthor: all collected citation strings, fatal
(`none`) exactly when no entry was collected from the whole document. -/
def parseAuthor (b : Str) : Option (List Str) :=
  let as := (scanLines b).foldl (fun acc l => acc ++ authorsOfLine l) []
  if as.isEmpty then none else some as

/-! Translation of convertDate (source lines 135 to 149).  The metadata
mapping produced by the front-matter parser is embedded as an
association list from keys to values, a value being either a string or
some non-string YAML value; convertDate needs nothing beyond that
distinction.  Go time.Parse with the fixed layout
2006-01-02T15:04:05Z07:00 demands exactly four year digits, exactly two
digits for the zero-padded month, day, minute and second verbs, the
literal dashes, T and colons, and a zone that is either the letter Z or
a sign with two-digit hours, a colon and two-digit minutes; the hour
verb of this layout is parsed by getnum in non-fixed mode, so one or
two hour digits are accepted; and, per the documented behavior of
Parse, a fractional second - a period or comma followed by at least one
digit - is consumed right after the seconds field even though the
layout carries no fractional-second verb.  Parse range-checks month,
day (against the month and leap rule), hour, minute and second. -/

/-- Values of the embedded metadata mapping. -/
inductive MetaVal where
  | strV : Str → MetaVal
  | otherV : MetaVal
deriving DecidableEq, Repr

/-- The metadata mapping. -/
abbrev Metadata := List (Str × MetaVal)

/-- Reads a key of the metadata mapping. -/
def lookupMeta (k : Str) : Metadata → Option MetaVal
  | [] => none
  | (k', v) :: r => if k' = k then some v else lookupMeta k r

/-- Overwrites a key of the metadata mapping. -/
def setMeta (k : Str) (v : MetaVal) : Metadata → Metadata
  | [] => []
  | (k', v') :: r => if k' = k then (k', v) :: r else (k', v') :: setMeta k v r

/-- Numeric value of a decimal digit character. -/
def digitVal (c : Char) : Option Nat := if c.isDigit then some (c.toNat - 48) else none

/-- Reads exactly two digits. -/
def take2 : Str → Option (Nat × Str)
  | c1 :: c2 :: r =>
    match digitVal c1, digitVal c2 with
    | some d1, some d2 => some (d1 * 10 + d2, r)
    | _, _ => none
  | _ => none

/-- Reads exactly four digits. -/
def take4 : Str → Option (Nat × Str)
  | c1 :: c2 :: c3 :: c4 :: r =>
    match digitVal c1, digitVal c2, digitVal c3, digitVal c4 with
    | some a, some b, some c, some d => some (((a * 10 + b) * 10 + c) * 10 + d, r)
    | _, _, _, _ => none
  | _ => none

/-- Reads one or two digits, as Go getnum in non-fixed mode: two digits
when the second character is also a digit, otherwise one. -/
def take1or2 : Str → Option (Nat × Str)
  | c1 :: c2 :: r =>
    (digitVal c1).bind fun d1 =>
      match digitVal c2 with
      | some d2 => some (d1 * 10 + d2, r)
      | none => some (d1, c2 :: r)
  | [c1] => (digitVal c1).map fun d1 => (d1, [])
  | [] => none

/-- Consumes a fractional second the way Go Parse does when the layout
has no fractional-second verb: when a period or comma is immediately
followed by a digit, the separator and every following digit are
consumed; otherwise the text is left untouched. -/
def dropFrac (s : Str) : Str :=
  match s with
  | sep :: d :: r =>
    if (sep = '.' ∨ sep = ',') ∧ d.isDigit = true then (d :: r).dropWhile Char.isDigit
    else s
  | _ => s

/-- Consumes one expected literal character. -/
def expectCh (c : Char) : Str → Option Str
  | c' :: r => if c' = c then some r else none
  | [] => none

/-- Gregorian leap-year rule used by Go time. -/
def isLeap (y : Nat) : Bool := y % 4 = 0 && (y % 100 ≠ 0 || y % 400 = 0)

/-- Days of a month as Go time validates them. -/
def daysIn (y m : Nat) : Nat :=
  if m = 2 then (if isLeap y then 29 else 28)
  else if m = 4 || m = 6 || m = 9 || m = 11 then 30
  else 31

/-- Accepts exactly the zone forms of the fixed layout: the letter Z, or
a sign, two digits, a colon and two digits, ending the input. -/
def zoneOk : Str → Bool
  | ['Z'] => true
  | c :: r =>
    (c = '+' || c = '-') &&
      (match take2 r with
       | some (_, r2) =>
         (match expectCh ':' r2 with
          | some r3 => (match take2 r3 with | some (_, []) => true | _ => false)
          | none => false)
       | none => false)
  | _ => false

/-- Embedding of Go time.Parse at the fixed input layout, reduced to the
data the pipeline consumes: the calendar date (year, month, day) on
success, `none` on any malformed or out-of-range input.  The hour reads
one or two digits; an input fractional second after the seconds field
is consumed even though the layout has none. -/
def parseGoTime (s : Str) : Option (Nat × Nat × Nat) :=
  (take4 s).bind fun (y, r1) =>
  (expectCh '-' r1).bind fun r2 =>
  (take2 r2).bind fun (m, r3) =>
  (expectCh '-' r3).bind fun r4 =>
  (take2 r4).bind fun (d, r5) =>
  (expectCh 'T' r5).bind fun r6 =>
  (take1or2 r6).bind fun (hh, r7) =>
  (expectCh ':' r7).bind fun r8 =>
  (take2 r8).bind fun (mi, r9) =>
  (expectCh ':' r9).bind fun r10 =>
  (take2 r10).bind fun (ss, r11) =>
  if 1 ≤ m ∧ m ≤ 12 ∧ 1 ≤ d ∧ d ≤ daysIn y m ∧ hh < 24 ∧ mi < 60 ∧ ss < 60 ∧
      zoneOk (dropFrac r11) = true
  then some (y, m, d) else none

/-- English month names of the output layout. -/
def monthName : Nat → Str
  | 1 => "January".data
  | 2 => "February".data
  | 3 => "March".data
  | 4 => "April".data
  | 5 => "May".data
  | 6 => "June".data
  | 7 => "July".data
  | 8 => "August".data
  | 9 => "September".data
  | 10 => "October".data
  | 11 => "November".data
  | 12 => "December".data
  | _ => []

/-- Two-digit zero-padded day, as the 02 verb of the output layout. -/
def pad2 (n : Nat) : Str := if n < 10 then '0' :: Nat.toDigits 10 n else Nat.toDigits 10 n

/-- Four-digit zero-padded year, as the 2006 verb of the output layout. -/
def pad4 (n : Nat) : Str :=
  if n < 10 then '0' :: '0' :: '0' :: Nat.toDigits 10 n
  else if n < 100 then '0' :: '0' :: Nat.toDigits 10 n
  else if n < 1000 then '0' :: Nat.toDigits 10 n
  else Nat.toDigits 10 n

/-- Embedding of t.Format at the fixed output layout: month name,
space, padded day, comma, space, year. -/
def formatGoDate (y m d : Nat) : Str :=
  monthName m ++ " ".data ++ pad2 d ++ ", ".data ++ pad4 y

/-- Translation of convertDate: fatal (`none`) when the date key is
absent, holds a non-string value, or fails to parse in the fixed input
layout; otherwise the date value is overwritten with its human-readable
rendering. -/
def convertDate (meta : Metadata) : Option Metadata :=
  match lookupMeta "date".data meta with
  | none => none
  | some (MetaVal.strV s) =>
    (match parseGoTime s with
     | none => none
     | some (y, m, d) => some (setMeta "date".data (MetaVal.strV (formatGoDate y m d)) meta))
  | some MetaVal.otherV => none

/-! Translation of the argument validation at the top of `main` (source
lines 47 to 60): with other than one positional argument, `usage()`
writes the usage text to standard error and `main` returns normally, so
the process exits with status 0; with one argument that does not end in
the markdown extension, log.Fatalf writes a diagnostic to standard
error and exits with status 1; otherwise the pipeline proceeds and its
first file operation (os.ReadFile) happens after this point. -/

/-- Outcome of the argument validation of `main`. -/
inductive StartupOutcome where
  | exitUsage
  | exitBadExt
  | proceed : Str → StartupOutcome
deriving DecidableEq, Repr

/-- Translation of the argument validation: exactly one argument is
required, and it must end in the markdown extension. -/
def startup : List Str → StartupOutcome
  | [path] =>
    if ".md".data.isSuffixOf path then StartupOutcome.proceed path
    else StartupOutcome.exitBadExt
  | _ => StartupOutcome.exitUsage

/-- Process exit status of a validation outcome; `none` when the run
continues into the pipeline.  A plain return from `main` exits 0;
log.Fatalf exits 1. -/
def startupExitCode : StartupOutcome → Option Nat
  | StartupOutcome.exitUsage => some 0
  | StartupOutcome.exitBadExt => some 1
  | StartupOutcome.proceed _ => none

/-- Whether the validation outcome wrote a human-readable message to the
error stream (the usage text, or the log.Fatalf diagnostic). -/
def startupStderr : StartupOutcome → Bool
  | StartupOutcome.exitUsage => true
  | StartupOutcome.exitBadExt => true
  | StartupOutcome.proceed _ => false

/-- Whether any file read or write happens before the process
terminates: on both failing outcomes the program terminates during
validation, before os.ReadFile and before any write. -/
def startupFileIO : StartupOutcome → Bool
  | StartupOutcome.exitUsage => false
  | StartupOutcome.exitBadExt => false
  | StartupOutcome.proceed _ => true

/-! Translation of the tail of `main` (source lines 107 to 131): the
bibliography file and the composite article file are written, each write
is followed by a deferred os.Remove of that file, then the renderer
subprocess runs.  Go semantics embedded here: a normal return from the
function runs the deferred calls in last-in-first-out order, while
log.Fatal is Print followed by os.Exit(1), and os.Exit terminates the
process immediately without running deferred calls. -/

/-- A deferred action of the tail of `main`. -/
inductive DeferAct where
  | removeRef
  | removeArticle
deriving DecidableEq, Repr

/-- Observable process state: whether each temporary file exists on
disk, the stack of pending deferred calls (head newest), and the exit
status once the process has terminated. -/
structure RunState where
  refOnDisk : Bool
  articleOnDisk : Bool
  defers : List DeferAct
  exitStatus : Option Nat
deriving DecidableEq, Repr

/-- Effect of one deferred os.Remove. -/
def applyAct : DeferAct → RunState → RunState
  | DeferAct.removeRef, st => { st with refOnDisk := false }
  | DeferAct.removeArticle, st => { st with articleOnDisk := false }

/-- Runs the pending deferred calls, newest first. -/
def runDefers (st : RunState) : RunState :=
  st.defers.foldl (fun s a => applyAct a s) { st with defers := [] }

/-- A normal return from `main`: deferred calls run, then the process
exits with the given status. -/
def goReturn (code : Nat) (st : RunState) : RunState :=
  { runDefers st with exitStatus := some code }

/-- os.Exit: immediate termination, deferred calls are not run. -/
def osExit (code : Nat) (st : RunState) : RunState :=
  { st with exitStatus := some code }

/-- State before the two temporary files are written. -/
def initialRun : RunState := ⟨false, false, [], none⟩

/-- Translation of the tail of `main`, from the point where both
temporary files are about to be written, parameterized by whether the
renderer subprocess exits with status 0: write the bibliography file,
defer its removal, write the article file, defer its removal, run the
renderer; on renderer failure log.Fatal (os.Exit 1), otherwise return
normally. -/
def mainFinish (renderOk : Bool) (st : RunState) : RunState :=
  let st1 := { st with refOnDisk := true }
  let st2 := { st1 with defers := DeferAct.removeRef :: st1.defers }
  let st3 := { st2 with articleOnDisk := true }
  let st4 := { st3 with defers := DeferAct.removeArticle :: st3.defers }
  if renderOk then goReturn 0 st4 else osExit 1 st4

/-! Translation of the output-path computation of `main` (source lines
122 and 123): strings.Cut of the pdf-extension path around the first
occurrence of the posts segment, the destination being the
concatenation of the two parts.  The spec-side description of the same
computation is a separate definition below. -/

/-- Translation of the destination-path computation: trim the markdown
extension, append the pdf extension, and cut around the posts segment,
concatenating before and after (when the segment is absent Go Cut
returns the whole string and an empty remainder, so the path is
unchanged). -/
def dstPath (path : Str) : Str :=
  let s := trimSuf ".md".data path ++ ".pdf".data
  match cutStr "/posts".data s with
  | none => s
  | some (bf, af) => bf ++ af

/-- Modelled from the spec: removal of the first occurrence of a
substring, written independently of the Cut-based implementation. -/
def removeFirstOcc (sep : Str) : Str → Str
  | [] => []
  | c :: r =>
    if sep.isPrefixOf (c :: r) then (c :: r).drop sep.length
    else c :: removeFirstOcc sep r

/-- Modelled from the spec: the output path is the input path with the
markdown extension stripped, the pdf extension appended, and the first
occurrence of the posts segment removed. -/
def specOutputPath (p : Str) : Str :=
  removeFirstOcc "/posts".data (trimSuf ".md".data p ++ ".pdf".data)

/-! The two literal substitutions of parseReferences, taken on their own
so that their order can be studied.  `refsSubst` is the source order
(lines 258 and 259); `refsSubstSwapped` applies the same two
substitutions the other way round.  The proof device `subst2` is a
structurally recursive form of ReplaceAll at a two-character pattern,
and `substBoth` performs both substitutions in a single left-to-right
scan. -/

/-- Replacement text of the first substitution of parseReferences. -/
def bibOpenRep : Str := "\\bibitem\x7b".data

/-- Replacement text of the second substitution of parseReferences. -/
def braceRep : Str := "\x7d".data

/-- The two-substitution stage of parseReferences in source order:
first the definition opener, then the definition closer. -/
def refsSubst (s : Str) : Str :=
  replaceAll "]:".data braceRep (replaceAll "[^".data bibOpenRep s)

/-- The same two substitutions applied in the swapped order. -/
def refsSubstSwapped (s : Str) : Str :=
  replaceAll "[^".data bibOpenRep (replaceAll "]:".data braceRep s)

/-- Structural form of ReplaceAll at a two-character pattern. -/
def subst2 (a b : Char) (rep : Str) : Str → Str
  | [] => []
  | [c] => [c]
  | c1 :: c2 :: r =>
    if c1 = a ∧ c2 = b then rep ++ subst2 a b rep r
    else c1 :: subst2 a b rep (c2 :: r)

/-- Both substitutions of parseReferences in one left-to-right scan. -/
def substBoth : Str → Str
  | [] => []
  | [c] => [c]
  | c1 :: c2 :: r =>
    if c1 = '[' ∧ c2 = '^' then bibOpenRep ++ substBoth r
    else if c1 = ']' ∧ c2 = ':' then braceRep ++ substBoth r
    else c1 :: substBoth (c2 :: r)

theorem replaceAllF_nil (fuel : Nat) (pat rep : Str) : replaceAllF fuel pat rep [] = [] := by
  cases fuel <;> rfl

theorem replaceAllF_pair (a b : Char) (rep : Str) :
    ∀ fuel s, s.length ≤ fuel → replaceAllF fuel [a, b] rep s = subst2 a b rep s := by
  intro fuel
  induction fuel with
  | zero =>
    intro s hs
    have hnil : s = [] := List.length_eq_zero.mp (Nat.le_zero.mp hs)
    subst hnil; rfl
  | succ fuel ih =>
    intro s hs
    match s with
    | [] => rfl
    | [c] =>
      simp [replaceAllF, subst2, List.isPrefixOf, replaceAllF_nil]
    | c1 :: c2 :: r =>
      have hlen : r.length + 2 ≤ fuel + 1 := by simpa using hs
      by_cases h : c1 = a ∧ c2 = b
      · obtain ⟨h1, h2⟩ := h
        subst h1; subst h2
        simp only [replaceAllF, List.isPrefixOf, beq_self_eq_true, Bool.and_self,
          Bool.true_and, if_true]
        have hdrop : List.drop [c1, c2].length (c1 :: c2 :: r) = r := rfl
        rw [hdrop, ih r (by omega)]
        simp [subst2]
      · have hb : ([a, b].isPrefixOf (c1 :: c2 :: r)) = false := by
          simp only [List.isPrefixOf, Bool.and_eq_true, beq_iff_eq, List.isPrefixOf_nil_left,
            Bool.and_true, ← Bool.not_eq_true]
          intro hcontra
          exact h ⟨hcontra.1.symm, hcontra.2.symm⟩
        simp only [replaceAllF, hb, Bool.false_eq_true, if_false]
        rw [ih (c2 :: r) (by simp; omega)]
        simp only [subst2, h, if_false]

theorem replaceAll_pair (a b : Char) (rep s : Str) :
    replaceAll [a, b] rep s = subst2 a b rep s :=
  replaceAllF_pair a b rep s.length s le_rfl

theorem subst2_cons_ne (a b : Char) (rep : Str) (c : Char) (t : Str) (h : c ≠ a) :
    subst2 a b rep (c :: t) = c :: subst2 a b rep t := by
  match t with
  | [] => rfl
  | c2 :: r => simp [subst2, h]

theorem subst2_cons_headNe (a b : Char) (rep : Str) (t : Str) (h : t.head? ≠ some b) :
    subst2 a b rep (a :: t) = a :: subst2 a b rep t := by
  match t with
  | [] => rfl
  | c2 :: r =>
    have hc2 : c2 ≠ b := by intro e; exact h (by simp [e])
    simp [subst2, hc2]

theorem subst2_cons_hit (a b : Char) (rep : Str) (r : Str) :
    subst2 a b rep (a :: b :: r) = rep ++ subst2 a b rep r := by
  simp [subst2]

theorem subst2_head (a b : Char) (rep : Str) (hrep : rep ≠ []) (c : Char) (t : Str) :
    (subst2 a b rep (c :: t)).head? = some c ∨
      (subst2 a b rep (c :: t)).head? = rep.head? := by
  match t with
  | [] => left; rfl
  | c2 :: r =>
    by_cases h : c = a ∧ c2 = b
    · obtain ⟨h1, h2⟩ := h
      subst h1; subst h2
      rw [subst2_cons_hit]
      match rep with
      | [] => exact absurd rfl hrep
      | rh :: rt => right; rfl
    · left
      simp [subst2, h]

theorem subst2_append_avoid (a b : Char) (rep : Str) :
    ∀ (u t : Str), (∀ c ∈ u, c ≠ a) → subst2 a b rep (u ++ t) = u ++ subst2 a b rep t := by
  intro u
  induction u with
  | nil => intro t _; simp
  | cons c u ih =>
    intro t h
    simp only [List.cons_append]
    rw [subst2_cons_ne a b rep c (u ++ t) (h c (by simp))]
    rw [ih t (fun x hx => h x (by simp [hx]))]

theorem commAux : ∀ n (s : Str), s.length ≤ n →
    subst2 ']' ':' braceRep (subst2 '[' '^' bibOpenRep s) = substBoth s ∧
    subst2 '[' '^' bibOpenRep (subst2 ']' ':' braceRep s) = substBoth s := by
  intro n
  induction n with
  | zero =>
    intro s hs
    have hnil : s = [] := List.length_eq_zero.mp (Nat.le_zero.mp hs)
    subst hnil
    exact ⟨rfl, rfl⟩
  | succ n ih =>
    intro s hs
    rcases s with _ | ⟨c1, _ | ⟨c2, r⟩⟩
    · exact ⟨rfl, rfl⟩
    · exact ⟨rfl, rfl⟩
    · have hs' : r.length + 2 ≤ n + 1 := by simpa using hs
      have hr : r.length ≤ n := by omega
      have hcr : (c2 :: r).length ≤ n := by simp; omega
      by_cases hA : c1 = '[' ∧ c2 = '^'
      · obtain ⟨h1, h2⟩ := hA
        subst h1; subst h2
        constructor
        · rw [subst2_cons_hit '[' '^' bibOpenRep r]
          rw [subst2_append_avoid ']' ':' braceRep bibOpenRep
            (subst2 '[' '^' bibOpenRep r) (by decide)]
          rw [(ih r hr).1]
          simp [substBoth]
        · have e1 : subst2 ']' ':' braceRep ('[' :: '^' :: r) =
              '[' :: '^' :: subst2 ']' ':' braceRep r := by
            rw [subst2_cons_ne ']' ':' braceRep '[' ('^' :: r) (by decide)]
            rw [subst2_cons_ne ']' ':' braceRep '^' r (by decide)]
          rw [e1, subst2_cons_hit '[' '^' bibOpenRep (subst2 ']' ':' braceRep r)]
          rw [(ih r hr).2]
          simp [substBoth]
      · by_cases hB : c1 = ']' ∧ c2 = ':'
        · obtain ⟨h1, h2⟩ := hB
          subst h1; subst h2
          constructor
          · have e1 : subst2 '[' '^' bibOpenRep (']' :: ':' :: r) =
                ']' :: ':' :: subst2 '[' '^' bibOpenRep r := by
              rw [subst2_cons_ne '[' '^' bibOpenRep ']' (':' :: r) (by decide)]
              rw [subst2_cons_ne '[' '^' bibOpenRep ':' r (by decide)]
            rw [e1, subst2_cons_hit ']' ':' braceRep (subst2 '[' '^' bibOpenRep r)]
            rw [(ih r hr).1]
            simp [substBoth]
          · rw [subst2_cons_hit ']' ':' braceRep r]
            rw [subst2_append_avoid '[' '^' bibOpenRep braceRep
              (subst2 ']' ':' braceRep r) (by decide)]
            rw [(ih r hr).2]
            simp [substBoth]
        · have hsub : substBoth (c1 :: c2 :: r) = c1 :: substBoth (c2 :: r) := by
            simp [substBoth, hA, hB]
          by_cases hc1L : c1 = '['
          · subst hc1L
            have hc2 : c2 ≠ '^' := fun e => hA ⟨rfl, e⟩
            constructor
            · rw [subst2_cons_headNe '[' '^' bibOpenRep (c2 :: r) (by simp [hc2])]
              rw [subst2_cons_ne ']' ':' braceRep '['
                (subst2 '[' '^' bibOpenRep (c2 :: r)) (by decide)]
              rw [(ih (c2 :: r) hcr).1, hsub]
            · rw [subst2_cons_ne ']' ':' braceRep '[' (c2 :: r) (by decide)]
              have hne : (subst2 ']' ':' braceRep (c2 :: r)).head? ≠ some '^' := by
                rcases subst2_head ']' ':' braceRep (by decide) c2 r with h | h
                · rw [h]; simp [hc2]
                · rw [h]; decide
              rw [subst2_cons_headNe '[' '^' bibOpenRep
                (subst2 ']' ':' braceRep (c2 :: r)) hne]
              rw [(ih (c2 :: r) hcr).2, hsub]
          · by_cases hc1R : c1 = ']'
            · subst hc1R
              have hc2 : c2 ≠ ':' := fun e => hB ⟨rfl, e⟩
              constructor
              · rw [subst2_cons_ne '[' '^' bibOpenRep ']' (c2 :: r) (by decide)]
                have hne : (subst2 '[' '^' bibOpenRep (c2 :: r)).head? ≠ some ':' := by
                  rcases subst2_head '[' '^' bibOpenRep (by decide) c2 r with h | h
                  · rw [h]; simp [hc2]
                  · rw [h]; decide
                rw [subst2_cons_headNe ']' ':' braceRep
                  (subst2 '[' '^' bibOpenRep (c2 :: r)) hne]
                rw [(ih (c2 :: r) hcr).1, hsub]
              · rw [subst2_cons_headNe ']' ':' braceRep (c2 :: r) (by simp [hc2])]
                rw [subst2_cons_ne '[' '^' bibOpenRep ']'
                  (subst2 ']' ':' braceRep (c2 :: r)) (by decide)]
                rw [(ih (c2 :: r) hcr).2, hsub]
            · constructor
              · rw [subst2_cons_ne '[' '^' bibOpenRep c1 (c2 :: r) hc1L]
                rw [subst2_cons_ne ']' ':' braceRep c1
                  (subst2 '[' '^' bibOpenRep (c2 :: r)) hc1R]
                rw [(ih (c2 :: r) hcr).1, hsub]
              · rw [subst2_cons_ne ']' ':' braceRep c1 (c2 :: r) hc1R]
                rw [subst2_cons_ne '[' '^' bibOpenRep c1
                  (subst2 ']' ':' braceRep (c2 :: r)) hc1L]
                rw [(ih (c2 :: r) hcr).2, hsub]

theorem refsSubst_eq_substBoth (s : Str) : refsSubst s = substBoth s := by
  show replaceAll "]:".data braceRep (replaceAll "[^".data bibOpenRep s) = substBoth s
  rw [show "[^".data = ['[', '^'] from rfl, show "]:".data = [']', ':'] from rfl]
  rw [replaceAll_pair '[' '^' bibOpenRep s]
  rw [replaceAll_pair ']' ':' braceRep (subst2 '[' '^' bibOpenRep s)]
  exact (commAux s.length s le_rfl).1

theorem refsSubstSwapped_eq_substBoth (s : Str) : refsSubstSwapped s = substBoth s := by
  show replaceAll "[^".data bibOpenRep (replaceAll "]:".data braceRep s) = substBoth s
  rw [show "[^".data = ['[', '^'] from rfl, show "]:".data = [']', ':'] from rfl]
  rw [replaceAll_pair ']' ':' braceRep s]
  rw [replaceAll_pair '[' '^' bibOpenRep (subst2 ']' ':' braceRep s)]
  exact (commAux s.length s le_rfl).2

theorem refsSubstComm (s : Str) : refsSubst s = refsSubstSwapped s := by
  rw [refsSubst_eq_substBoth s, refsSubstSwapped_eq_substBoth s]

/-! General facts about the embedded strings.Cut: it decomposes its
input around the first occurrence of the separator, and it fails
exactly when the separator does not occur. -/

theorem isPre_iff (sep s : Str) : sep.isPrefixOf s = true ↔ sep <+: s := by
  induction sep generalizing s with
  | nil => simp [List.isPrefixOf]
  | cons a sp ih =>
    cases s with
    | nil => simp [List.isPrefixOf]
    | cons b r => simp [List.isPrefixOf, List.cons_prefix_cons, ih]

theorem isPre_append_drop (sep s : Str) (h : sep.isPrefixOf s = true) :
    sep ++ s.drop sep.length = s := by
  obtain ⟨t, ht⟩ := (isPre_iff sep s).mp h
  subst ht
  simp

theorem cutStr_eq_some (sep : Str) :
    ∀ s bf af, cutStr sep s = some (bf, af) → s = bf ++ sep ++ af := by
  intro s
  induction s with
  | nil =>
    intro bf af h
    by_cases hsep : sep.isEmpty
    · have hnil : sep = [] := by cases sep with
        | nil => rfl
        | cons a t => simp [List.isEmpty] at hsep
      simp [cutStr, hsep] at h
      obtain ⟨h1, h2⟩ := h
      simp [hnil, h1, h2]
    · simp [cutStr, hsep] at h
  | cons c r ih =>
    intro bf af h
    simp only [cutStr] at h
    by_cases hpre : sep.isPrefixOf (c :: r)
    · rw [if_pos hpre] at h
      simp only [Option.some.injEq, Prod.mk.injEq] at h
      obtain ⟨h1, h2⟩ := h
      subst h1; subst h2
      simp [isPre_append_drop sep (c :: r) hpre]
    · rw [if_neg hpre] at h
      cases hcut : cutStr sep r with
      | none => rw [hcut] at h; exact absurd h (by simp)
      | some p =>
        obtain ⟨bf', af'⟩ := p
        rw [hcut] at h
        simp only [Option.some.injEq, Prod.mk.injEq] at h
        obtain ⟨h1, h2⟩ := h
        subst h1; subst h2
        have := ih bf' af' hcut
        simp [this]

theorem cutStr_none_iff (sep : Str) (hsep : sep ≠ []) :
    ∀ s, cutStr sep s = none ↔ ¬ sep <:+: s := by
  intro s
  induction s with
  | nil =>
    have hne : sep.isEmpty = false := by
      cases sep with
      | nil => exact absurd rfl hsep
      | cons a t => rfl
    simp [cutStr, hne, List.infix_nil, hsep]
  | cons c r ih =>
    simp only [cutStr]
    by_cases hpre : sep.isPrefixOf (c :: r)
    · rw [if_pos hpre]
      have hinf : sep <:+: c :: r := ((isPre_iff sep (c :: r)).mp hpre).isInfix
      simp [hinf]
    · rw [if_neg hpre]
      have hiff : sep <:+: (c :: r) ↔ sep <:+: r := by
        rw [List.infix_cons_iff]
        constructor
        · rintro (h | h)
          · exact absurd ((isPre_iff sep (c :: r)).mpr h) hpre
          · exact h
        · exact Or.inr
      cases hcut : cutStr sep r with
      | none =>
        have hni : ¬ sep <:+: r := ih.mp hcut
        simp [hcut, hiff, hni]
      | some p =>
        obtain ⟨bf, af⟩ := p
        have hr : sep <:+: r := by
          rw [cutStr_eq_some sep r bf af hcut]
          exact ⟨bf, af, rfl⟩
        simp [hcut, hiff, hr]

theorem cutStr_first (sep : Str) :
    ∀ s bf af x y, cutStr sep s = some (bf, af) → s = x ++ sep ++ y →
      bf.length ≤ x.length := by
  intro s
  induction s with
  | nil =>
    intro bf af x y h _
    by_cases hsep : sep.isEmpty
    · simp [cutStr, hsep] at h
      obtain ⟨h1, _⟩ := h
      subst h1
      simp
    · simp [cutStr, hsep] at h
  | cons c r ih =>
    intro bf af x y h heq
    simp only [cutStr] at h
    by_cases hpre : sep.isPrefixOf (c :: r)
    · rw [if_pos hpre] at h
      simp only [Option.some.injEq, Prod.mk.injEq] at h
      obtain ⟨h1, _⟩ := h
      subst h1
      simp
    · rw [if_neg hpre] at h
      cases hcut : cutStr sep r with
      | none => rw [hcut] at h; exact absurd h (by simp)
      | some p =>
        obtain ⟨bf', af'⟩ := p
        rw [hcut] at h
        simp only [Option.some.injEq, Prod.mk.injEq] at h
        obtain ⟨h1, _⟩ := h
        subst h1
        cases x with
        | nil =>
          exfalso
          apply hpre
          rw [isPre_iff]
          exact ⟨y, by simpa using heq.symm⟩
        | cons cx x' =>
          have heq' : c = cx ∧ r = x' ++ sep ++ y := by simpa using heq
          simp only [List.length_cons, Nat.succ_le_succ_iff]
          exact ih bf' af' x' y hcut heq'.2

theorem cutStr_after_suffix (sep : Str) (s bf af : Str)
    (h : cutStr sep s = some (bf, af)) : af <:+ s := by
  rw [cutStr_eq_some sep s bf af h]
  exact ⟨bf ++ sep, by simp⟩

theorem cutStr_removeFirst (sep : Str) (hsep : sep ≠ []) :
    ∀ s, (match cutStr sep s with
          | none => s
          | some (bf, af) => bf ++ af) = removeFirstOcc sep s := by
  intro s
  induction s with
  | nil =>
    have hne : sep.isEmpty = false := by
      cases sep with
      | nil => exact absurd rfl hsep
      | cons a t => rfl
    simp [cutStr, hne, removeFirstOcc]
  | cons c r ih =>
    simp only [cutStr, removeFirstOcc]
    by_cases hpre : sep.isPrefixOf (c :: r)
    · rw [if_pos hpre, if_pos hpre]
      simp
    · rw [if_neg hpre, if_neg hpre]
      cases hcut : cutStr sep r with
      | none =>
        rw [hcut] at ih
        have ih' : r = removeFirstOcc sep r := by simpa using ih
        simp [hcut, ← ih']
      | some p =>
        obtain ⟨bf, af⟩ := p
        rw [hcut] at ih
        have ih' : bf ++ af = removeFirstOcc sep r := by simpa using ih
        simp [hcut, ← ih']

/-! The ten claims. -/

/-- C1: the claim states that whenever the run has written both
temporary files, both are removed before the process exits regardless
of the renderer's exit status.  The embedded execution of the tail of
`main` refutes the failure half and confirms the success half: when the
renderer exits non-zero, log.Fatal reaches os.Exit(1) without running
the two deferred os.Remove calls, so both files are still on disk at
exit; when the renderer succeeds, the normal return runs both deferred
removals and neither file remains. -/
theorem c1_cleanup_skipped_on_renderer_failure :
    (mainFinish false initialRun).refOnDisk = true ∧
    (mainFinish false initialRun).articleOnDisk = true ∧
    (mainFinish false initialRun).exitStatus = some 1 ∧
    (mainFinish true initialRun).refOnDisk = false ∧
    (mainFinish true initialRun).articleOnDisk = false ∧
    (mainFinish true initialRun).exitStatus = some 0 := by decide

/-- C2 counterexample: the claim demands a non-zero exit code for every
failing invocation, but the invocation with zero CLI arguments (a
failing invocation: it prints the usage text to standard error and
terminates) exits with status 0, because `usage()` is followed by a
plain return from `main`. -/
theorem c2_counterexample :
    startup [] = StartupOutcome.exitUsage ∧
    startupStderr (startup []) = true ∧
    startupExitCode (startup []) = some 0 := by decide

/-- C2 amended: every failing invocation prints a human-readable
diagnostic to the error stream and performs no file reads or writes
before terminating; the wrong-extension invocation exits with status 1,
but a wrong-argument-count invocation exits with status 0. -/
theorem c2_failing_invocations (args : List Str) :
    (args.length ≠ 1 →
      startup args = StartupOutcome.exitUsage ∧
      startupStderr (startup args) = true ∧
      startupExitCode (startup args) = some 0 ∧
      startupFileIO (startup args) = false) ∧
    (∀ p, args = [p] → ".md".data.isSuffixOf p = false →
      startup args = StartupOutcome.exitBadExt ∧
      startupStderr (startup args) = true ∧
      startupExitCode (startup args) = some 1 ∧
      startupFileIO (startup args) = false) := by
  constructor
  · intro hlen
    cases args with
    | nil => exact ⟨rfl, rfl, rfl, rfl⟩
    | cons a t =>
      cases t with
      | nil => simp at hlen
      | cons b u => exact ⟨rfl, rfl, rfl, rfl⟩
  · intro p hargs hext
    subst hargs
    simp [startup, hext, startupStderr, startupExitCode, startupFileIO]

/-- C2 witness: the amended statement applied to the two concrete
failing invocations, zero arguments and one non-markdown argument. -/
theorem c2_failing_invocations_witness :
    startup [] = StartupOutcome.exitUsage ∧
    startupExitCode (startup []) = some 0 ∧
    startup ["doc.txt".data] = StartupOutcome.exitBadExt ∧
    startupExitCode (startup ["doc.txt".data]) = some 1 := by
  have h1 := (c2_failing_invocations []).1 (by decide)
  have h2 := (c2_failing_invocations ["doc.txt".data]).2 "doc.txt".data rfl (by decide)
  exact ⟨h1.1, h1.2.2.1, h2.1, h2.2.2.1⟩

/-- C3 counterexample: the claim asserts the existence of a References
text on which the swapped substitution order produces a different final
result; no such text exists, because the two substitutions commute. -/
theorem c3_counterexample : ¬ ∃ s : Str, refsSubstSwapped s ≠ refsSubst s := by
  rintro ⟨s, hne⟩
  exact hne (refsSubstComm s).symm

/-- C3 amended: the pair of literal substitutions applied to the
References text is order-independent: for every text, applying the
closer substitution before the opener substitution produces the same
final result as the source order, because the two patterns share no
characters and neither replacement introduces a character of the other
pattern. -/
theorem c3_substitutions_commute (s : Str) : refsSubst s = refsSubstSwapped s :=
  refsSubstComm s

/-- C4 counterexample: the claim asserts the rewriting is idempotent for
every text; it is not, because a matched key may itself contain the
citation-opening token, in which case the replaced output recombines
with the following text into a fresh marker that a second pass
rewrites. -/
theorem c4_counterexample :
    replCite (replCite "[^a[^b]c]".data) ≠ replCite "[^a[^b]c]".data := by decide

/-- C4 amended: the inline-citation rewriting is not idempotent for
every text: on the input where a matched key contains the opening
token, the first pass leaves a pattern occurrence and the second pass
changes the text again; on ordinary text whose keys contain no opening
token a second application produces no further change. -/
theorem c4_idempotence_only_without_nested_openers :
    replCite "see [^x].".data = "see \\cite\x7bx\x7d.".data ∧
    replCite (replCite "see [^x].".data) = replCite "see [^x].".data ∧
    replCite "[^a[^b]c]".data = "\\cite\x7ba[^b\x7dc]".data ∧
    replCite (replCite "[^a[^b]c]".data) = "\\cite\x7ba\\cite\x7bb\x7dc\x7d".data := by
  decide

/-- C5 counterexample: the claim demands that an identical URL occurring
twice in the References text be wrapped exactly once at both
occurrences; the wrapping loop instead wraps each occurrence once per
entry of the found-URL list, so a URL found twice ends up doubly
wrapped (nested url markup) at both occurrences. -/
theorem c5_counterexample :
    parseReferences "## References\nA https://x.com B https://x.com".data =
      some "\\begin\x7bthebibliography\x7d\x7b99\x7dA \\url\x7b\\url\x7bhttps://x.com\x7d\x7d B \\url\x7b\\url\x7bhttps://x.com\x7d\x7d\\end\x7bthebibliography\x7d".data ∧
    (cutStr "\\url\x7b\\url\x7b".data
      "\\begin\x7bthebibliography\x7d\x7b99\x7dA \\url\x7b\\url\x7bhttps://x.com\x7d\x7d B \\url\x7b\\url\x7bhttps://x.com\x7d\x7d\\end\x7bthebibliography\x7d".data).isSome
      = true := by
  constructor
  · decide
  · decide

/-- C5 amended: a strictly-delimited URL occurring once in the
References text is wrapped exactly once, the trailing period being
excluded from the match; but an identical URL occurring twice is
wrapped twice (nested) at both occurrences, because each duplicate
entry of the found-URL list triggers another global replacement. -/
theorem c5_url_wrapping :
    parseReferences "## References\nSee https://example.com/page.".data =
      some "\\begin\x7bthebibliography\x7d\x7b99\x7dSee \\url\x7bhttps://example.com/page\x7d.\\end\x7bthebibliography\x7d".data ∧
    parseReferences "## References\nA https://x.com B https://x.com".data =
      some "\\begin\x7bthebibliography\x7d\x7b99\x7dA \\url\x7b\\url\x7bhttps://x.com\x7d\x7d B \\url\x7b\\url\x7bhttps://x.com\x7d\x7d\\end\x7bthebibliography\x7d".data := by
  constructor
  · decide
  · decide

/-- C6: inline-citation matching is non-greedy: the input of two
adjacent markers rewrites to two independent citations for keys a and
b, never to a single citation whose key spans the text between the
first opener and the last closer. -/
theorem c6_nongreedy_adjacent_markers :
    replCite "[^a][^b]".data = "\\cite\x7ba\x7d\\cite\x7bb\x7d".data := by decide

/-- C7: author extraction on the documented convention line produces
the record with name Jane Doe and the at-marker normalized to a real
at sign; the serialized citation string embeds that address verbatim;
and extraction is fatal exactly when zero well-formed entries are found
in the whole document (a document whose author line has no well-formed
bracketed entry fails). -/
theorem c7_author_roundtrip :
    parseEntry "[Jane Doe](mailto:jane[at]example.com)".data =
      some ⟨"Jane Doe".data, "jane@example.com".data⟩ ∧
    authorString ⟨"Jane Doe".data, "jane@example.com".data⟩ =
      "Jane Doe^[Email: jane@example.com]".data ∧
    parseAuthor "Title\nAuthor(s): [Jane Doe](mailto:jane[at]example.com)\nrest".data =
      some ["Jane Doe^[Email: jane@example.com]".data] ∧
    parseAuthor "Title\nAuthor(s): Jane Doe\nrest".data = none ∧
    (∀ b, parseAuthor b = none ↔
      (scanLines b).foldl (fun acc l => acc ++ authorsOfLine l) [] = []) := by
  refine ⟨by decide, by decide, by decide, by decide, ?_⟩
  intro b
  simp only [parseAuthor]
  by_cases h : (scanLines b).foldl (fun acc l => acc ++ authorsOfLine l) [] = []
  · simp [h]
  · have : ((scanLines b).foldl (fun acc l => acc ++ authorsOfLine l) []).isEmpty = false := by
      cases hc : (scanLines b).foldl (fun acc l => acc ++ authorsOfLine l) [] with
      | nil => exact absurd hc h
      | cons x t => rfl
    simp [this, h]

/-- C8: date conversion rewrites the date value of the metadata with
its rendering in the fixed human-readable layout, the documented input
becoming September 30, 2020, and it is fatal exactly when the date
field is missing, holds a non-string value, or is not parsable in the
fixed input timestamp layout (shown both concretely and in general).
The concrete cases cover the parsability boundary of Go time.Parse at
this layout: a malformed layout and an out-of-range day are fatal,
while a one-digit hour and a fractional second (period or comma) after
the seconds field are accepted and convert to the same rendering. -/
theorem c8_convertDate_roundtrip :
    convertDate [("title".data, MetaVal.strV "t".data),
                 ("date".data, MetaVal.strV "2020-09-30T09:02:20+01:00".data)] =
      some [("title".data, MetaVal.strV "t".data),
            ("date".data, MetaVal.strV "September 30, 2020".data)] ∧
    convertDate [("date".data, MetaVal.strV "2020-09-30T9:02:20+01:00".data)] =
      some [("date".data, MetaVal.strV "September 30, 2020".data)] ∧
    convertDate [("date".data, MetaVal.strV "2020-09-30T09:02:20.5+01:00".data)] =
      some [("date".data, MetaVal.strV "September 30, 2020".data)] ∧
    convertDate [("date".data, MetaVal.strV "2020-09-30T09:02:20,537Z".data)] =
      some [("date".data, MetaVal.strV "September 30, 2020".data)] ∧
    convertDate [("date".data, MetaVal.strV "2020-09-30T09:02:20.+01:00".data)] = none ∧
    convertDate [("title".data, MetaVal.strV "t".data)] = none ∧
    convertDate [("date".data, MetaVal.otherV)] = none ∧
    convertDate [("date".data, MetaVal.strV "30 Sep 2020".data)] = none ∧
    convertDate [("date".data, MetaVal.strV "2020-09-31T09:02:20+01:00".data)] = none ∧
    (∀ m, convertDate m = none ↔
      (lookupMeta "date".data m = none ∨
       lookupMeta "date".data m = some MetaVal.otherV ∨
       ∃ s, lookupMeta "date".data m = some (MetaVal.strV s) ∧ parseGoTime s = none)) := by
  refine ⟨by decide, by decide, by decide, by decide, by decide, by decide, by decide,
    by decide, by decide, ?_⟩
  intro m
  cases h : lookupMeta "date".data m with
  | none => simp [convertDate, h]
  | some v =>
    cases v with
    | strV s =>
      cases hp : parseGoTime s with
      | none => simp [convertDate, h, hp]
      | some t => simp [convertDate, h, hp]
    | otherV => simp [convertDate, h]

/-- C9: for every input path ending in the markdown extension, the
computed destination path equals the path with the markdown extension
stripped, the pdf extension appended, and the first occurrence of the
posts segment removed. -/
theorem c9_output_path (p : Str) (_h : ".md".data.isSuffixOf p = true) :
    dstPath p = specOutputPath p := by
  simp only [dstPath, specOutputPath]
  exact cutStr_removeFirst "/posts".data (by decide) _

/-- C9 witness: the documented example path maps to the documented
output path, on both the implementation side and the spec side. -/
theorem c9_output_path_witness :
    dstPath "content/posts/bench-time.md".data = "content/bench-time.pdf".data ∧
    specOutputPath "content/posts/bench-time.md".data = "content/bench-time.pdf".data := by
  refine ⟨by decide, ?_⟩
  rw [← c9_output_path "content/posts/bench-time.md".data (by decide)]
  decide

/-- C10: body extraction splits on the references heading without a
trailing newline while References extraction requires the heading
followed by a newline; hence on every document of the shape whose
references heading is the final text with no newline after it (and in
which the heading-plus-newline occurs nowhere), body extraction
succeeds while References extraction fails fatally. -/
theorem c10_delimiter_asymmetry (a b2 : Str)
    (hno : ¬ "## References\n".data <:+:
      (a ++ "\n<!--more-->".data ++ b2 ++ "## References".data)) :
    (parseBody (a ++ "\n<!--more-->".data ++ b2 ++ "## References".data)).isSome = true ∧
    parseReferences (a ++ "\n<!--more-->".data ++ b2 ++ "## References".data) = none := by
  set d := a ++ "\n<!--more-->".data ++ b2 ++ "## References".data with hd
  constructor
  · have hmore : "\n<!--more-->".data <:+: d :=
      ⟨a, b2 ++ "## References".data, by rw [hd]; simp⟩
    cases hcutm : cutStr "\n<!--more-->".data d with
    | none => exact absurd hmore (by simpa using (cutStr_none_iff _ (by decide) d).mp hcutm)
    | some p =>
      obtain ⟨bf, af⟩ := p
      have hdec : d = bf ++ "\n<!--more-->".data ++ af := cutStr_eq_some _ d bf af hcutm
      have hfirst : bf.length ≤ a.length :=
        cutStr_first _ d bf af a (b2 ++ "## References".data) hcutm (by rw [hd]; simp)
      have hlen : "## References".data.length ≤ af.length := by
        have e1 : d.length = bf.length + "\n<!--more-->".data.length + af.length := by
          rw [hdec]; simp [List.length_append]; omega
        have e2 : d.length = a.length + "\n<!--more-->".data.length +
            (b2.length + "## References".data.length) := by
          rw [hd]; simp [List.length_append]; omega
        omega
      have hsufh : "## References".data <:+ d :=
        ⟨(a ++ "\n<!--more-->".data) ++ b2, by rw [hd]⟩
      have hsufaf : af <:+ d := cutStr_after_suffix _ d bf af hcutm
      have hsuf2 : "## References".data <:+ af :=
        List.suffix_of_suffix_length_le hsufh hsufaf hlen
      cases hcutr : cutStr "## References".data af with
      | none =>
        exact absurd hsuf2.isInfix
          (by simpa using (cutStr_none_iff _ (by decide) af).mp hcutr)
      | some q =>
        obtain ⟨body, rest⟩ := q
        simp [parseBody, hcutm, hcutr]
  · have hcut := (cutStr_none_iff "## References\n".data (by decide) d).mpr hno
    simp [parseReferences, hcut]

/-- C10 witness: a concrete document ending in the bare references
heading, on which body extraction succeeds and References extraction
fails. -/
theorem c10_delimiter_asymmetry_witness :
    (parseBody ("X".data ++ "\n<!--more-->".data ++ "B".data ++ "## References".data)).isSome
      = true ∧
    parseReferences ("X".data ++ "\n<!--more-->".data ++ "B".data ++ "## References".data)
      = none := by
  have hno : ¬ "## References\n".data <:+:
      ("X".data ++ "\n<!--more-->".data ++ "B".data ++ "## References".data) :=
    (cutStr_none_iff "## References\n".data (by decide) _).mp (by decide)
  exact c10_delimiter_asymmetry "X".data "B".data hno
